import Mathlib

/-!
# Verification of the shopping-cost calculator (`app.py`)

A shallow embedding of the pure core of `app.py`: the price parser
(`parse_price`), the settings store (`load_settings` / `save_settings`),
the CSV history ledger (`append_history_row` / `read_history_rows` /
`delete_history_file`) and the two derived graph views (recent trend and
memo aggregation).

Modelling conventions:
* The filesystem is an explicit `Env` value: the data directory is a
  Boolean, each of the two files is an `Option` of its parsed content.
* CSV cell values are `String`s (CSV stores text); a row dictionary read
  by `csv.DictReader` is an association list `List (String × String)`
  obtained by zipping the file's header row with the data row.
* Python `float` values are idealised as exact rationals `ℚ`, and the
  builtin `float(str)` conversion is modelled by `pyFloat` on the
  decimal/scientific grammar (sign, digits, optional fraction, optional
  exponent).  Python extras not exercised by the program or the spec
  (`inf`/`nan` tokens, digit-group underscores, non-ASCII digits) are
  out of the modelled grammar and map to `none`.
* JSON documents are the inductive `JVal`; a JSON object is an ordered
  association list, mirroring Python's insertion-ordered `dict`.
-/

set_option maxRecDepth 100000

namespace ShoppingApp

/-! ## Python string primitives -/

/-- Drop whitespace characters from both ends of a character list. -/
def trimChars (l : List Char) : List Char :=
  ((l.dropWhile Char.isWhitespace).reverse.dropWhile Char.isWhitespace).reverse

/-- Model of Python `str.strip()`: drop whitespace from both ends. -/
def pyStrip (s : String) : String :=
  String.mk (trimChars s.data)

/-- Model of Python `s.replace(",", "")`: delete every comma. -/
def stripCommas (s : String) : String :=
  String.mk (s.data.filter (fun c => c ≠ ','))

/-- Numeric value of a digit string, most significant first. -/
def digitsNat (l : List Char) : ℕ :=
  l.foldl (fun a c => 10 * a + (c.toNat - ('0').toNat)) 0

/-- Value of a fractional digit string `f` read after a decimal point. -/
def fracVal (l : List Char) : ℚ :=
  (digitsNat l : ℚ) / 10 ^ l.length

/-- Exponent part of a float literal: empty means `0`; otherwise
`e`/`E`, an optional sign, and a nonempty run of digits consuming the
whole rest. -/
def parseExp : List Char → Option ℤ
  | [] => some 0
  | c :: r =>
    if c = 'e' ∨ c = 'E' then
      match r with
      | '+' :: d =>
          if d ≠ [] ∧ d.all Char.isDigit then some (digitsNat d : ℤ) else none
      | '-' :: d =>
          if d ≠ [] ∧ d.all Char.isDigit then some (-(digitsNat d : ℤ)) else none
      | d =>
          if d ≠ [] ∧ d.all Char.isDigit then some (digitsNat d : ℤ) else none
    else none

/-- Unsigned part of a float literal: digits, an optional `.` with
further digits, then the exponent part.  At least one digit must occur
around the point. -/
def parseFloatUnsigned (l : List Char) : Option ℚ :=
  let ip := l.takeWhile Char.isDigit
  let r1 := l.dropWhile Char.isDigit
  match r1 with
  | '.' :: r2 =>
    let fp := r2.takeWhile Char.isDigit
    let r3 := r2.dropWhile Char.isDigit
    if ip = [] ∧ fp = [] then none
    else (parseExp r3).map (fun e => ((digitsNat ip : ℚ) + fracVal fp) * (10 : ℚ) ^ e)
  | _ =>
    if ip = [] then none
    else (parseExp r1).map (fun e => (digitsNat ip : ℚ) * (10 : ℚ) ^ e)

/-- Optional sign, then the unsigned literal. -/
def pyFloatChars : List Char → Option ℚ
  | [] => none
  | c :: r =>
    if c = '+' then parseFloatUnsigned r
    else if c = '-' then (parseFloatUnsigned r).map (fun v => -v)
    else parseFloatUnsigned (c :: r)

/-- Model of Python `float(s)` on a string: strip whitespace, optional
sign, unsigned literal. -/
def pyFloat (s : String) : Option ℚ :=
  pyFloatChars (trimChars s.data)

/-! ## `parse_price` (app.py lines 105–118) -/

/-- Embedding of `parse_price(text)`: `None` input propagates; strip;
empty means `None`; delete commas; convert with `float`; negative
values are rejected; any conversion failure collapses to `None`. -/
def parse_price : Option String → Option ℚ
  | none => none
  | some text =>
    let s := pyStrip text
    if s = "" then none
    else
      match pyFloat (stripCommas s) with
      | none => none
      | some value => if value < 0 then none else some value

/-! ## Numeral grammars (specification side)

`PlainNumeral` is a decimal numeral without separators — a nonempty
digit run, optionally followed by `.` and further digits (at least one
digit in total).  `CommaNumeral` is a numeral with optional
thousands-separator commas: a leading group of one to three digits,
comma-separated groups of exactly three digits, and an optional
fractional part. -/

/-- A decimal numeral `int[.frac]` without sign or separators. -/
structure PlainNumeral where
  intPart : List Char
  frac : Option (List Char)

/-- Well-formed: all digits, and at least one digit present. -/
def PlainNumeral.wf (p : PlainNumeral) : Bool :=
  p.intPart.all Char.isDigit &&
    (match p.frac with
     | none => !p.intPart.isEmpty
     | some f => f.all Char.isDigit && (!p.intPart.isEmpty || !f.isEmpty))

/-- The characters of the numeral. -/
def PlainNumeral.chars (p : PlainNumeral) : List Char :=
  p.intPart ++ (match p.frac with | none => [] | some f => '.' :: f)

/-- The numeral as a string. -/
def PlainNumeral.render (p : PlainNumeral) : String :=
  String.mk p.chars

/-- The non-negative rational value the numeral denotes. -/
def PlainNumeral.value (p : PlainNumeral) : ℚ :=
  (digitsNat p.intPart : ℚ) +
    (match p.frac with | none => 0 | some f => fracVal f)

/-- A numeral with optional thousands-separator commas:
`first(,ggg)*[.frac]`. -/
structure CommaNumeral where
  first : List Char
  groups : List (List Char)
  frac : Option (List Char)

/-- Well-formed: a leading group of one to three digits, then groups of
exactly three digits, and an all-digit fractional part if present. -/
def CommaNumeral.wf (c : CommaNumeral) : Bool :=
  !c.first.isEmpty && c.first.length ≤ 3 && c.first.all Char.isDigit &&
    c.groups.all (fun g => g.length = 3 && g.all Char.isDigit) &&
    (match c.frac with | none => true | some f => f.all Char.isDigit)

/-- The same numeral with the commas deleted. -/
def CommaNumeral.toPlain (c : CommaNumeral) : PlainNumeral :=
  ⟨c.first ++ c.groups.flatten, c.frac⟩

/-- The numeral as a string, commas included. -/
def CommaNumeral.render (c : CommaNumeral) : String :=
  String.mk (c.first ++ (c.groups.map (fun g => ',' :: g)).flatten ++
    (match c.frac with | none => [] | some f => '.' :: f))

/-- The non-negative rational value the numeral denotes. -/
def CommaNumeral.value (c : CommaNumeral) : ℚ :=
  c.toPlain.value

/-! ## JSON values and the settings store (app.py lines 30–52) -/

/-- A JSON document, as produced by `json.load`.  Objects are ordered
association lists, matching Python's insertion-ordered `dict`. -/
inductive JVal where
  | num (q : ℚ)
  | str (s : String)
  | bool (b : Bool)
  | null
  | arr (l : List JVal)
  | obj (o : List (String × JVal))

/-- Content of the settings file on disk: either text that `json.load`
rejects, or a JSON document. -/
inductive SContent where
  | bad
  | val (j : JVal)

/-- One data row of the history CSV, as a list of cell strings. -/
abbrev CsvRow := List String

/-- The history CSV file: its header row and its data rows. -/
structure HistFile where
  header : List String
  rows : List CsvRow
deriving DecidableEq

/-- The filesystem state the program touches: the `data` directory and
the two files under it (`none` = the file does not exist). -/
structure Env where
  dirExists : Bool
  settings : Option SContent
  history : Option HistFile

/-- `ensure_data_dir()`: `os.makedirs(DATA_DIR, exist_ok=True)`. -/
def ensure_data_dir (e : Env) : Env :=
  { e with dirExists := true }

/-- The default settings dict `{"tax_rate": 0.10}`. -/
def defaultSettings : List (String × JVal) :=
  [("tax_rate", JVal.num (1 / 10))]

/-- Embedding of `load_settings()`.  Absent file: default.  Unparsable
file: `json.load` raises, the `except` returns the default.  A JSON
document that is not an object: the membership test or the item
assignment raises inside the `try`, so the default is returned.  An
object without `"tax_rate"`: the key is appended with the default value
(Python dict assignment inserts at the end).  Returns the new
filesystem state (`ensure_data_dir` ran) and the resulting dict. -/
def load_settings (e : Env) : Env × List (String × JVal) :=
  let e' := ensure_data_dir e
  match e.settings with
  | none => (e', defaultSettings)
  | some SContent.bad => (e', defaultSettings)
  | some (SContent.val (JVal.obj d)) =>
      if (d.lookup "tax_rate").isSome then (e', d)
      else (e', d ++ [("tax_rate", JVal.num (1 / 10))])
  | some (SContent.val _) => (e', defaultSettings)

/-- Embedding of `save_settings(settings)`: ensures the directory and
overwrites the settings file with the serialized dict. -/
def save_settings (e : Env) (s : List (String × JVal)) : Env :=
  { e with dirExists := true, settings := some (SContent.val (JVal.obj s)) }

/-! ## The history ledger (app.py lines 58–99) -/

/-- The `fieldnames` list of `append_history_row`. -/
def FIELDNAMES : List String :=
  ["datetime", "count", "subtotal", "tax_rate", "total", "memo"]

/-- The dict passed to `append_history_row`, with its six expected
keys; `memo = none` models a dict lacking the `"memo"` key. -/
structure InputRow where
  datetime : String
  count : String
  subtotal : String
  tax_rate : String
  total : String
  memo : Option String
deriving DecidableEq

/-- The in-place repair `if "memo" not in row: row["memo"] = ""`. -/
def defaultMemo (r : InputRow) : InputRow :=
  if r.memo = none then { r with memo := some "" } else r

/-- The cell values `csv.DictWriter.writerow` emits for a row dict, in
`fieldnames` order. -/
def rowValues (r : InputRow) : CsvRow :=
  [r.datetime, r.count, r.subtotal, r.tax_rate, r.total, r.memo.getD ""]

/-- Embedding of `append_history_row(row)`: ensure the directory,
record whether the file existed, default the missing `memo` key in the
caller's dict, write the header first when the file did not exist, and
append the one data row.  Returns the new state and the (possibly
mutated) argument dict. -/
def append_history_row (e : Env) (row : InputRow) : Env × InputRow :=
  let e' := ensure_data_dir e
  let row' := defaultMemo row
  match e.history with
  | none =>
      ({ e' with history := some ⟨FIELDNAMES, [rowValues row']⟩ }, row')
  | some f =>
      ({ e' with history := some ⟨f.header, f.rows ++ [rowValues row']⟩ }, row')

/-- The dict form of an input row under the standard header: what
`csv.DictReader` yields for the cells `rowValues r` when the file's
header row is `FIELDNAMES`. -/
def toDict (r : InputRow) : List (String × String) :=
  FIELDNAMES.zip (rowValues r)

/-- One dict produced by `csv.DictReader`: the header names zipped with
the row's cells, plus the legacy repair `r["memo"] = ""` when the
header has no `memo` column. -/
def readRow (header : List String) (cells : CsvRow) : List (String × String) :=
  let r := header.zip cells
  if (r.lookup "memo").isSome then r else r ++ [("memo", "")]

/-- Embedding of `read_history_rows()`: empty when the file does not
exist, otherwise every data row as a dict, in file order. -/
def read_history_rows (e : Env) : List (List (String × String)) :=
  match e.history with
  | none => []
  | some f => f.rows.map (readRow f.header)

/-- Embedding of `delete_history_file()`: removes the file if it
exists; returns the new state and whether a file was removed. -/
def delete_history_file (e : Env) : Env × Bool :=
  match e.history with
  | none => (e, false)
  | some _ => ({ e with history := none }, true)

/-! ## Graph page, section 2: recent trend (app.py lines 296–318) -/

/-- A read dict, as returned by `read_history_rows`. -/
abbrev RowDict := List (String × String)

/-- `r.get(k, d)` on a read dict. -/
def dictGet (r : RowDict) (k : String) (d : String) : String :=
  (r.lookup k).getD d

/-- The short x-axis label: `dt[5:16] if len(dt) >= 16 else dt` applied
to `r.get("datetime", "")`. -/
def labelOf (r : RowDict) : String :=
  let dt := dictGet r "datetime" ""
  if 16 ≤ dt.length then String.mk ((dt.data.drop 5).take 11) else dt

/-- `float(r.get("total", 0))` guarded by `try/except`: a missing key
gives `float(0) = 0.0`; a conversion failure gives `0.0`. -/
def totalOf (r : RowDict) : ℚ :=
  match r.lookup "total" with
  | none => 0
  | some s => (pyFloat s).getD 0

/-- `r.get("memo", "")`, as appended raw to `memos`. -/
def memoRawOf (r : RowDict) : String :=
  dictGet r "memo" ""

/-- The Python slice `rows[-n:]`. -/
def sliceLast (l : List RowDict) (n : ℕ) : List RowDict :=
  if n = 0 then l else l.drop (l.length - n)

/-- The loop body of graph section 2: starting from three empty lists,
append each record's label, parsed total and raw memo. -/
def trendFold (recent : List RowDict) : List String × List ℚ × List String :=
  recent.foldl
    (fun acc r => (acc.1 ++ [labelOf r], acc.2.1 ++ [totalOf r], acc.2.2 ++ [memoRawOf r]))
    ([], [], [])

/-- Embedding of graph section 2: `recent = rows[-n:]`, then the loop
building the parallel `x_labels`, `totals` and `memos` lists. -/
def recentTrend (rows : List RowDict) (n : ℕ) : List String × List ℚ × List String :=
  trendFold (sliceLast rows n)

/-! ## Graph page, section 3: memo aggregation (app.py lines 348–363) -/

/-- The bucket key of a record: `(r.get("memo", "") or "").strip()`,
with the empty result replaced by `"(no memo)"`.  (`x or ""` is the
identity on strings: it replaces only the falsy `""` by `""`.) -/
def memoKeyOf (r : RowDict) : String :=
  let m := pyStrip (dictGet r "memo" "")
  if m = "" then "(no memo)" else m

/-- `buckets[memo] = buckets.get(memo, 0.0) + t` on an
insertion-ordered dict: an existing key keeps its position, a new key
is appended. -/
def bucketAdd (b : List (String × ℚ)) (k : String) (t : ℚ) : List (String × ℚ) :=
  match b with
  | [] => [(k, t)]
  | (k', v) :: rest =>
      if k' = k then (k', v + t) :: rest else (k', v) :: bucketAdd rest k t

/-- The accumulation loop of graph section 3 over all records. -/
def bucketsOf (rows : List RowDict) : List (String × ℚ) :=
  rows.foldl (fun b r => bucketAdd b (memoKeyOf r) (totalOf r)) []

/-- `sorted(buckets.items(), key=lambda x: x[1], reverse=True)`:
a stable sort, descending on the summed total. -/
def sortBuckets (b : List (String × ℚ)) : List (String × ℚ) :=
  b.mergeSort (fun x y => decide (y.2 ≤ x.2))

/-- Embedding of graph section 3: accumulate buckets over the whole
ledger, sort descending by value, keep the top 10. -/
def topBuckets (rows : List RowDict) : List (String × ℚ) :=
  (sortBuckets (bucketsOf rows)).take 10

/-! ## List and character lemmas -/

theorem takeWhile_append_of_all {p : Char → Bool} {l r : List Char}
    (h : ∀ c ∈ l, p c = true) :
    (l ++ r).takeWhile p = l ++ r.takeWhile p := by
  induction l with
  | nil => simp
  | cons c t ih =>
      simp only [List.cons_append, List.takeWhile_cons, h c (List.mem_cons_self c t),
        if_true, ih (fun x hx => h x (List.mem_cons_of_mem c hx))]

theorem dropWhile_append_of_all {p : Char → Bool} {l r : List Char}
    (h : ∀ c ∈ l, p c = true) :
    (l ++ r).dropWhile p = r.dropWhile p := by
  induction l with
  | nil => simp
  | cons c t ih =>
      simp only [List.cons_append, List.dropWhile_cons, h c (List.mem_cons_self c t),
        if_true, ih (fun x hx => h x (List.mem_cons_of_mem c hx))]

theorem takeWhile_eq_self_of_all {p : Char → Bool} {l : List Char}
    (h : ∀ c ∈ l, p c = true) : l.takeWhile p = l := by
  have := takeWhile_append_of_all (r := []) h
  simpa using this

theorem dropWhile_eq_nil_of_all {p : Char → Bool} {l : List Char}
    (h : ∀ c ∈ l, p c = true) : l.dropWhile p = [] := by
  have := dropWhile_append_of_all (r := []) h
  simpa using this

theorem dropWhile_eq_self_of_none {p : Char → Bool} {l : List Char}
    (h : ∀ c ∈ l, p c = false) : l.dropWhile p = l := by
  induction l with
  | nil => simp
  | cons c t ih =>
      simp only [List.dropWhile_cons, h c (List.mem_cons_self c t)]
      simp

theorem trimChars_eq_self {l : List Char}
    (h : ∀ c ∈ l, c.isWhitespace = false) : trimChars l = l := by
  unfold trimChars
  rw [dropWhile_eq_self_of_none h,
    dropWhile_eq_self_of_none (fun c hc => h c (List.mem_reverse.mp hc)),
    List.reverse_reverse]

theorem digit_not_ws {c : Char} (h : c.isDigit = true) : c.isWhitespace = false := by
  simp only [Char.isDigit, Bool.and_eq_true, decide_eq_true_eq] at h
  obtain ⟨h1, h2⟩ := h
  by_contra hw
  rw [Bool.not_eq_false] at hw
  simp only [Char.isWhitespace, Bool.or_eq_true, decide_eq_true_eq] at hw
  rcases hw with ((rfl | rfl) | rfl) | rfl <;> revert h1 <;> decide

theorem digit_ne_of {c d : Char} (h : c.isDigit = true) (hd : d.isDigit = false) :
    c ≠ d := by
  rintro rfl
  rw [h] at hd
  exact Bool.noConfusion hd

/-! ## The float parser on well-formed numerals -/

theorem PlainNumeral.wf_digits {p : PlainNumeral} (h : p.wf = true) :
    (∀ c ∈ p.intPart, c.isDigit = true) ∧
      (∀ f, p.frac = some f → ∀ c ∈ f, c.isDigit = true) ∧
      (p.intPart = [] → ∃ f, p.frac = some f ∧ f ≠ []) := by
  obtain ⟨i, f⟩ := p
  cases f with
  | none =>
      simp only [PlainNumeral.wf, Bool.and_eq_true, List.all_eq_true,
        Bool.not_eq_true', List.isEmpty_eq_false] at h
      exact ⟨h.1, by simp, fun hi => absurd hi h.2⟩
  | some f =>
      simp only [PlainNumeral.wf, Bool.and_eq_true, List.all_eq_true,
        Bool.not_eq_true', Bool.or_eq_true, List.isEmpty_eq_false] at h
      refine ⟨h.1, by simpa using h.2.1, fun hi => ⟨f, rfl, ?_⟩⟩
      rcases h.2.2 with hne | hne
      · exact absurd hi hne
      · exact hne

theorem parseFloatUnsigned_plain (p : PlainNumeral) (h : p.wf = true) :
    parseFloatUnsigned p.chars = some p.value := by
  obtain ⟨hi, hf, hne⟩ := PlainNumeral.wf_digits h
  obtain ⟨i, f⟩ := p
  cases f with
  | none =>
      have hni : i ≠ [] := by
        intro hnil
        obtain ⟨f, hf', _⟩ := hne hnil
        exact Option.noConfusion hf'
      simp only [PlainNumeral.chars, List.append_nil]
      simp only [parseFloatUnsigned, takeWhile_eq_self_of_all hi,
        dropWhile_eq_nil_of_all hi]
      simp only [parseExp, Option.map_some]
      rw [if_neg hni]
      simp only [PlainNumeral.value, Option.map_some]
      norm_num
  | some f =>
      have hfd : ∀ c ∈ f, c.isDigit = true := hf f rfl
      simp only [PlainNumeral.chars]
      simp only [parseFloatUnsigned,
        takeWhile_append_of_all hi, dropWhile_append_of_all hi]
      have hdot : ('.' : Char).isDigit = false := by decide
      simp only [List.takeWhile_cons, List.dropWhile_cons, hdot,
        Bool.false_eq_true, if_false, List.append_nil]
      simp only [takeWhile_eq_self_of_all hfd, dropWhile_eq_nil_of_all hfd]
      have hcond : ¬(i = [] ∧ f = []) := by
        rintro ⟨rfl, rfl⟩
        obtain ⟨f', hf', hne'⟩ := hne rfl
        cases hf'
        exact hne' rfl
      rw [if_neg hcond]
      simp only [parseExp, Option.map_some, PlainNumeral.value]
      norm_num

theorem pyFloatChars_eq_unsigned {c : Char} {r : List Char}
    (h1 : c ≠ '+') (h2 : c ≠ '-') :
    pyFloatChars (c :: r) = parseFloatUnsigned (c :: r) := by
  simp [pyFloatChars, h1, h2]

theorem chars_head_not_sign (p : PlainNumeral) (h : p.wf = true) :
    ∃ c rest, p.chars = c :: rest ∧ c ≠ '+' ∧ c ≠ '-' := by
  obtain ⟨hi, hf, hne⟩ := PlainNumeral.wf_digits h
  obtain ⟨i, f⟩ := p
  cases i with
  | nil =>
      obtain ⟨f', hf', _⟩ := hne rfl
      simp only at hf'
      subst hf'
      exact ⟨'.', f', by simp [PlainNumeral.chars], by decide, by decide⟩
  | cons c t =>
      have hc : c.isDigit = true := hi c (List.mem_cons_self c t)
      cases f with
      | none =>
          exact ⟨c, t, by simp [PlainNumeral.chars], digit_ne_of hc (by decide),
            digit_ne_of hc (by decide)⟩
      | some f =>
          exact ⟨c, t ++ '.' :: f, by simp [PlainNumeral.chars],
            digit_ne_of hc (by decide), digit_ne_of hc (by decide)⟩

theorem pyFloatChars_plain (p : PlainNumeral) (h : p.wf = true) :
    pyFloatChars p.chars = some p.value := by
  obtain ⟨c, rest, hchars, hcp, hcm⟩ := chars_head_not_sign p h
  rw [hchars, pyFloatChars_eq_unsigned hcp hcm, ← hchars]
  exact parseFloatUnsigned_plain p h

theorem chars_not_ws (p : PlainNumeral) (h : p.wf = true) :
    ∀ c ∈ p.chars, c.isWhitespace = false := by
  obtain ⟨hi, hf, _⟩ := PlainNumeral.wf_digits h
  obtain ⟨i, f⟩ := p
  intro c hc
  simp only [PlainNumeral.chars, List.mem_append] at hc
  rcases hc with hc | hc
  · exact digit_not_ws (hi c hc)
  · cases f with
    | none => simp at hc
    | some f =>
        simp only [List.mem_cons] at hc
        rcases hc with rfl | hc
        · decide
        · exact digit_not_ws (hf f rfl c hc)

theorem pyFloat_plain (p : PlainNumeral) (h : p.wf = true) :
    pyFloat p.render = some p.value := by
  unfold pyFloat PlainNumeral.render
  rw [show (String.mk p.chars).data = p.chars from rfl,
    trimChars_eq_self (chars_not_ws p h)]
  exact pyFloatChars_plain p h

theorem value_nonneg (p : PlainNumeral) : 0 ≤ p.value := by
  obtain ⟨i, f⟩ := p
  cases f with
  | none => simp [PlainNumeral.value]
  | some f =>
      simp only [PlainNumeral.value, fracVal]
      positivity

theorem CommaNumeral.wf_unpack {c : CommaNumeral} (h : c.wf = true) :
    c.first ≠ [] ∧ (∀ x ∈ c.first, x.isDigit = true) ∧
      (∀ g ∈ c.groups, ∀ x ∈ g, x.isDigit = true) ∧
      (∀ f, c.frac = some f → ∀ x ∈ f, x.isDigit = true) := by
  obtain ⟨f1, gs, fr⟩ := c
  simp only [CommaNumeral.wf, Bool.and_eq_true, Bool.not_eq_true',
    List.isEmpty_eq_false, List.all_eq_true, decide_eq_true_eq] at h
  obtain ⟨⟨⟨⟨h1, _⟩, h3⟩, h4⟩, h5⟩ := h
  refine ⟨h1, h3, fun g hg x hx => ((h4 g hg).2 x hx), ?_⟩
  intro f hf x hx
  cases fr with
  | none => exact Option.noConfusion hf
  | some f' =>
      cases hf
      have h5' : ∀ y ∈ f, y.isDigit = true := by
        simpa [List.all_eq_true] using h5
      exact h5' x hx

theorem CommaNumeral.wf_toPlain {c : CommaNumeral} (h : c.wf = true) :
    c.toPlain.wf = true := by
  obtain ⟨h1, h3, h4, h5⟩ := CommaNumeral.wf_unpack h
  obtain ⟨f1, gs, fr⟩ := c
  have hall : ∀ x ∈ f1 ++ gs.flatten, x.isDigit = true := by
    intro x hx
    rcases List.mem_append.mp hx with hx | hx
    · exact h3 x hx
    · obtain ⟨g, hg, hxg⟩ := List.mem_flatten.mp hx
      exact h4 g hg x hxg
  have hne : (f1 ++ gs.flatten).isEmpty = false := by
    cases f1 with
    | nil => exact absurd rfl h1
    | cons a t => simp
  cases fr with
  | none =>
      simp only [CommaNumeral.toPlain, PlainNumeral.wf, Bool.and_eq_true,
        List.all_eq_true, Bool.not_eq_true']
      exact ⟨hall, hne⟩
  | some f =>
      simp only [CommaNumeral.toPlain, PlainNumeral.wf, Bool.and_eq_true,
        List.all_eq_true, Bool.not_eq_true', Bool.or_eq_true]
      exact ⟨hall, fun x hx => h5 f rfl x hx, Or.inl hne⟩

theorem filter_ne_comma_of_digits {l : List Char}
    (h : ∀ x ∈ l, x.isDigit = true) :
    l.filter (fun x => x ≠ ',') = l :=
  List.filter_eq_self.mpr (fun x hx => decide_eq_true (digit_ne_of (h x hx) (by decide)))

theorem filter_flatten_comma_groups {gs : List (List Char)}
    (h : ∀ g ∈ gs, ∀ x ∈ g, x.isDigit = true) :
    ((gs.map (fun g => ',' :: g)).flatten).filter (fun x => x ≠ ',') = gs.flatten := by
  induction gs with
  | nil => simp
  | cons g t ih =>
      simp only [List.map_cons, List.flatten_cons, List.filter_append,
        List.filter_cons]
      rw [if_neg (by simp), filter_ne_comma_of_digits (h g (List.mem_cons_self g t)),
        ih (fun g' hg' => h g' (List.mem_cons_of_mem g hg'))]

theorem stripCommas_render {c : CommaNumeral} (h : c.wf = true) :
    stripCommas c.render = c.toPlain.render := by
  obtain ⟨h1, h3, h4, h5⟩ := CommaNumeral.wf_unpack h
  obtain ⟨f1, gs, fr⟩ := c
  show String.mk _ = String.mk _
  congr 1
  show List.filter _ (f1 ++ _ ++ _) = _
  rw [List.filter_append, List.filter_append,
    filter_ne_comma_of_digits h3, filter_flatten_comma_groups h4]
  cases fr with
  | none => simp [CommaNumeral.toPlain, PlainNumeral.chars]
  | some f =>
      simp only [CommaNumeral.toPlain, PlainNumeral.chars, List.filter_cons]
      rw [if_pos (by decide), filter_ne_comma_of_digits (h5 f rfl)]

theorem render_not_ws {c : CommaNumeral} (h : c.wf = true) :
    ∀ x ∈ c.render.data, x.isWhitespace = false := by
  obtain ⟨h1, h3, h4, h5⟩ := CommaNumeral.wf_unpack h
  obtain ⟨f1, gs, fr⟩ := c
  intro x hx
  show x.isWhitespace = false
  simp only [CommaNumeral.render] at hx
  change x ∈ f1 ++ _ ++ _ at hx
  rcases List.mem_append.mp hx with hx | hx
  · rcases List.mem_append.mp hx with hx | hx
    · exact digit_not_ws (h3 x hx)
    · obtain ⟨l, hl, hxl⟩ := List.mem_flatten.mp hx
      obtain ⟨g, hg, rfl⟩ := List.mem_map.mp hl
      rcases List.mem_cons.mp hxl with rfl | hxg
      · decide
      · exact digit_not_ws (h4 g hg x hxg)
  · cases fr with
    | none => simp at hx
    | some f =>
        rcases List.mem_cons.mp hx with rfl | hxf
        · decide
        · exact digit_not_ws (h5 f rfl x hxf)

theorem pyStrip_render {c : CommaNumeral} (h : c.wf = true) :
    pyStrip c.render = c.render := by
  unfold pyStrip
  rw [show c.render.data = (c.render).data from rfl, trimChars_eq_self (render_not_ws h)]

theorem render_ne_empty {c : CommaNumeral} (h : c.wf = true) :
    c.render ≠ "" := by
  obtain ⟨h1, _, _, _⟩ := CommaNumeral.wf_unpack h
  obtain ⟨f1, gs, fr⟩ := c
  cases f1 with
  | nil => exact absurd rfl h1
  | cons a t =>
      intro he
      cases fr with
      | none =>
          have hdata : ((a :: t) ++ (gs.map (fun g => ',' :: g)).flatten ++
              ([] : List Char)) = ([] : List Char) := congrArg String.data he
          simp at hdata
      | some f =>
          have hdata : ((a :: t) ++ (gs.map (fun g => ',' :: g)).flatten ++
              ('.' :: f)) = ([] : List Char) := congrArg String.data he
          simp at hdata

/-! ## Claim C5 and C10: the price parser contract -/

theorem parse_price_some (s : String) :
    parse_price (some s) =
      if pyStrip s = "" then none
      else
        match pyFloat (stripCommas (pyStrip s)) with
        | none => none
        | some v => if v < 0 then none else some v := rfl

/-- C5. Price parser contract: every well-formed numeral with optional
thousands-separator commas parses to its (non-negative) value; every
empty or whitespace-only string gives `none`; every string whose
`float` conversion yields a negative value gives `none`; every string
whose `float` conversion fails gives `none`; and the result, being a
total function, never carries a negative value (no exception escapes —
the embedding is a total function returning an `Option`). -/
theorem parse_price_contract :
    (∀ n : CommaNumeral, n.wf = true → parse_price (some n.render) = some n.value) ∧
    (∀ s : String, (∀ x ∈ s.data, x.isWhitespace = true) →
      parse_price (some s) = none) ∧
    (∀ (s : String) (v : ℚ), pyFloat (stripCommas (pyStrip s)) = some v → v < 0 →
      parse_price (some s) = none) ∧
    (∀ s : String, pyFloat (stripCommas (pyStrip s)) = none →
      parse_price (some s) = none) ∧
    (∀ (t : Option String) (v : ℚ), parse_price t = some v → 0 ≤ v) := by
  refine ⟨?_, ?_, ?_, ?_, ?_⟩
  · intro n hn
    rw [parse_price_some, pyStrip_render hn, if_neg (render_ne_empty hn),
      stripCommas_render hn, pyFloat_plain _ (CommaNumeral.wf_toPlain hn)]
    show (if n.toPlain.value < 0 then none else some n.toPlain.value) = some n.value
    rw [if_neg (not_lt.mpr (value_nonneg n.toPlain))]
    rfl
  · intro s hws
    have hempty : pyStrip s = "" := by
      unfold pyStrip trimChars
      rw [dropWhile_eq_nil_of_all hws]
      rfl
    rw [parse_price_some, if_pos hempty]
  · intro s v hv hneg
    rw [parse_price_some]
    by_cases hs : pyStrip s = ""
    · rw [if_pos hs]
    · rw [if_neg hs, hv]
      show (if v < 0 then none else some v) = none
      rw [if_pos hneg]
  · intro s hv
    rw [parse_price_some]
    by_cases hs : pyStrip s = ""
    · rw [if_pos hs]
    · rw [if_neg hs, hv]
  · intro t v hv
    cases t with
    | none => exact Option.noConfusion hv
    | some s =>
        rw [parse_price_some] at hv
        by_cases hs : pyStrip s = ""
        · rw [if_pos hs] at hv
          exact Option.noConfusion hv
        · rw [if_neg hs] at hv
          cases hp : pyFloat (stripCommas (pyStrip s)) with
          | none =>
              rw [hp] at hv
              exact Option.noConfusion hv
          | some w =>
              rw [hp] at hv
              change (if w < 0 then none else some w) = some v at hv
              by_cases hw : w < 0
              · rw [if_pos hw] at hv
                exact Option.noConfusion hv
              · rw [if_neg hw] at hv
                injection hv with hv
                rw [← hv]
                exact not_lt.mp hw

/-- Witness for C5: the numeral `1,234.5` parses to `1234.5`. -/
theorem parse_price_contract_witness :
    parse_price (some "1,234.5") = some (2469 / 2) := by
  have h := parse_price_contract.1 ⟨['1'], [['2', '3', '4']], some ['5']⟩ (by decide)
  have hr : (⟨['1'], [['2', '3', '4']], some ['5']⟩ : CommaNumeral).render = "1,234.5" := by
    decide
  have hd1 : digitsNat ['1', '2', '3', '4'] = 1234 := by decide
  have hd2 : digitsNat ['5'] = 5 := by decide
  have hv : (⟨['1'], [['2', '3', '4']], some ['5']⟩ : CommaNumeral).value = 2469 / 2 := by
    simp only [CommaNumeral.value, CommaNumeral.toPlain, PlainNumeral.value, fracVal,
      List.flatten_cons, List.flatten_nil, List.append_nil, List.cons_append,
      List.nil_append, List.length_cons, List.length_nil]
    norm_num [hd1, hd2]
  rw [hr, hv] at h
  exact h

/-- C10. Comma stripping is position-insensitive: whenever deleting all
commas from the trimmed input leaves a well-formed plain non-negative
numeral, `parse_price` returns that numeral's value — the commas need
not be grouped as thousands separators. -/
theorem parse_price_strips_all_commas :
    ∀ (s : String) (p : PlainNumeral), p.wf = true →
      stripCommas (pyStrip s) = p.render →
      parse_price (some s) = some p.value := by
  intro s p hw hs
  have hne : pyStrip s ≠ "" := by
    intro h0
    rw [h0] at hs
    obtain ⟨c0, rest, hchars, _, _⟩ := chars_head_not_sign p hw
    have h2 : ([] : List Char) = p.chars := congrArg String.data hs
    rw [hchars] at h2
    exact List.noConfusion h2
  rw [parse_price_some, if_neg hne, hs, pyFloat_plain p hw]
  show (if p.value < 0 then none else some p.value) = some p.value
  rw [if_neg (not_lt.mpr (value_nonneg p))]

/-- Witness for C10: `",5"` — an ill-formed grouping — parses to `5`. -/
theorem parse_price_strips_all_commas_witness :
    parse_price (some ",5") = some 5 := by
  have h := parse_price_strips_all_commas ",5" ⟨['5'], none⟩ (by decide) (by decide)
  have hd : digitsNat ['5'] = 5 := by decide
  have hv : (⟨['5'], none⟩ : PlainNumeral).value = 5 := by
    simp only [PlainNumeral.value]
    norm_num [hd]
  rw [hv] at h
  exact h

/-! ## Claim C1: append then read -/

theorem readRow_fieldnames (r : InputRow) :
    readRow FIELDNAMES (rowValues r) = toDict r := by
  simp [readRow, toDict, FIELDNAMES, rowValues, List.lookup]

/-- C1 counterexample: on a ledger whose existing file has the legacy
five-column header (no `memo` column), appending a record whose memo is
`"x"` and reading back gives a last element whose `memo` is the
repaired `""`, not `"x"` — so the last element of `read_all()` is not
the appended record with its memo defaulted. -/
theorem append_then_read_legacy_cex :
    (read_history_rows (append_history_row
        ⟨true, none, some ⟨["datetime", "count", "subtotal", "tax_rate", "total"], []⟩⟩
        ⟨"2024-01-01 00:00:00", "1", "100", "0.1", "110", some "x"⟩).1).getLast?
      ≠ some (toDict (defaultMemo
        ⟨"2024-01-01 00:00:00", "1", "100", "0.1", "110", some "x"⟩)) := by
  decide

/-- C1 (amended): for every record and every ledger state whose file is
absent or carries the standard six-column header, after
`append_history_row` the last element of `read_history_rows` is the
appended record (as a read dict) with `memo` defaulted to `""` if it
was absent; the header row is created exactly when the file did not yet
exist, and an existing file's header and rows are preserved with the
new row appended. -/
theorem append_then_read (e : Env) (r : InputRow)
    (h : ∀ f, e.history = some f → f.header = FIELDNAMES) :
    (read_history_rows (append_history_row e r).1).getLast?
        = some (toDict (defaultMemo r))
    ∧ (e.history = none →
        (append_history_row e r).1.history
          = some ⟨FIELDNAMES, [rowValues (defaultMemo r)]⟩)
    ∧ (∀ f, e.history = some f →
        (append_history_row e r).1.history
          = some ⟨f.header, f.rows ++ [rowValues (defaultMemo r)]⟩) := by
  cases hh : e.history with
  | none =>
      refine ⟨?_, fun _ => ?_, fun f hf => ?_⟩
      · simp only [append_history_row, hh, read_history_rows, List.map_cons,
          List.map_nil, List.getLast?_singleton, readRow_fieldnames]
      · simp only [append_history_row, hh]
      · exact Option.noConfusion hf
  | some f0 =>
      have hf0 : f0.header = FIELDNAMES := h f0 hh
      refine ⟨?_, fun hn => ?_, fun f hf => ?_⟩
      · simp only [append_history_row, hh, read_history_rows, List.map_append,
          List.map_cons, List.map_nil]
        rw [List.getLast?_concat, hf0, readRow_fieldnames]
      · exact Option.noConfusion hn
      · injection hf with hf
        subst hf
        simp only [append_history_row, hh]

/-- Witness for C1 (amended): appending a memo-less record to an absent
ledger reads back with `memo = ""`. -/
theorem append_then_read_witness :
    (read_history_rows (append_history_row ⟨false, none, none⟩
        ⟨"2024-01-01 00:00:00", "1", "100", "0.1", "110", none⟩).1).getLast?
      = some (toDict (defaultMemo
        ⟨"2024-01-01 00:00:00", "1", "100", "0.1", "110", none⟩)) :=
  (append_then_read ⟨false, none, none⟩ _ (fun _ hf => Option.noConfusion hf)).1

/-! ## Claim C4: ledger clear -/

/-- C4. `delete_history_file` removes the file when present and reports
whether one was removed: the resulting state always has no history
file, the returned flag is exactly the file's prior existence, a
subsequent `read_history_rows` returns the empty sequence, and on a
state with no history file the operation returns `false` and leaves
the state unchanged. -/
theorem clear_contract (e : Env) :
    (delete_history_file e).1 = { e with history := none }
    ∧ (delete_history_file e).2 = e.history.isSome
    ∧ read_history_rows (delete_history_file e).1 = []
    ∧ delete_history_file { e with history := none }
        = ({ e with history := none }, false) := by
  obtain ⟨d, s, h⟩ := e
  cases h <;> simp [delete_history_file, read_history_rows]

/-! ## Claim C9: argument mutation in append -/

/-- C9. `append_history_row` hands back the caller's dict with the
`memo` key added as `""` exactly when it was absent: a dict lacking
`memo` is returned with `memo = ""`, and a dict that had a `memo` value
is returned unmodified. -/
theorem append_mutates_arg (e : Env) (r : InputRow) :
    (append_history_row e r).2
        = (if r.memo = none then { r with memo := some "" } else r)
    ∧ ((append_history_row e r).2).memo = some (r.memo.getD "") := by
  obtain ⟨d, s, h⟩ := e
  obtain ⟨dt, cnt, sub, tax, tot, m⟩ := r
  cases h <;> cases m <;> simp [append_history_row, defaultMemo]

/-! ## Claims C6, C7, C8: the settings store -/

theorem lookup_append_some {d l : List (String × JVal)} {k : String} {v : JVal}
    (h : d.lookup k = some v) : (d ++ l).lookup k = some v := by
  induction d with
  | nil => exact Option.noConfusion h
  | cons a t ih =>
      obtain ⟨a1, a2⟩ := a
      cases hb : (k == a1) with
      | true =>
          simp only [List.cons_append, List.lookup_cons, hb] at h ⊢
          exact h
      | false =>
          simp only [List.cons_append, List.lookup_cons, hb] at h ⊢
          exact ih h

theorem lookup_append_none {d l : List (String × JVal)} {k : String}
    (h : d.lookup k = none) : (d ++ l).lookup k = l.lookup k := by
  induction d with
  | nil => rfl
  | cons a t ih =>
      obtain ⟨a1, a2⟩ := a
      cases hb : (k == a1) with
      | true =>
          simp only [List.lookup_cons, hb] at h
          exact Option.noConfusion h
      | false =>
          simp only [List.cons_append, List.lookup_cons, hb] at h ⊢
          exact ih h

/-- C6. `load_settings` fallback: an absent settings file yields the
default `{tax_rate: 0.10}`; a malformed file also yields the default
(the exception is swallowed, the result carries no error); a valid JSON
object lacking `tax_rate` comes back with `tax_rate = 0.10` appended
while the lookup of every other key is unchanged. -/
theorem load_settings_fallback (e : Env) :
    (e.settings = none → (load_settings e).2 = defaultSettings)
    ∧ (e.settings = some SContent.bad → (load_settings e).2 = defaultSettings)
    ∧ (∀ d, e.settings = some (SContent.val (JVal.obj d)) →
        d.lookup "tax_rate" = none →
        (load_settings e).2 = d ++ [("tax_rate", JVal.num (1 / 10))]
        ∧ ((load_settings e).2).lookup "tax_rate" = some (JVal.num (1 / 10))
        ∧ ∀ k, k ≠ "tax_rate" → ((load_settings e).2).lookup k = d.lookup k) := by
  refine ⟨?_, ?_, ?_⟩
  · intro h
    simp [load_settings, h]
  · intro h
    simp [load_settings, h]
  · intro d h hl
    have h2 : (load_settings e).2 = d ++ [("tax_rate", JVal.num (1 / 10))] := by
      simp [load_settings, h, hl]
    refine ⟨h2, ?_, ?_⟩
    · rw [h2, lookup_append_none hl]
      simp [List.lookup_cons]
    · intro k hk
      rw [h2]
      cases hdk : d.lookup k with
      | some v => exact lookup_append_some hdk
      | none =>
          rw [lookup_append_none hdk]
          have hb : (k == "tax_rate") = false := beq_eq_false_iff_ne.mpr hk
          simp [List.lookup_cons, hb, hdk]

/-- Witness for C6: a settings object `{"theme": "dark"}` lacking
`tax_rate` loads with the default appended and the other key intact. -/
theorem load_settings_fallback_witness :
    (load_settings
      ⟨false, some (SContent.val (JVal.obj [("theme", JVal.str "dark")])), none⟩).2
      = [("theme", JVal.str "dark"), ("tax_rate", JVal.num (1 / 10))] :=
  ((load_settings_fallback _).2.2 [("theme", JVal.str "dark")] rfl rfl).1

/-- C7. Settings round-trip: saving a settings mapping that contains a
`tax_rate` key and then loading returns the same mapping. -/
theorem settings_round_trip (e : Env) (s : List (String × JVal))
    (h : (s.lookup "tax_rate").isSome = true) :
    (load_settings (save_settings e s)).2 = s := by
  simp [load_settings, save_settings, h]

/-- Witness for C7: round-trip of the default settings mapping. -/
theorem settings_round_trip_witness :
    (load_settings (save_settings ⟨false, none, none⟩ defaultSettings)).2
      = defaultSettings :=
  settings_round_trip ⟨false, none, none⟩ defaultSettings rfl

/-- C8. Fresh-environment load is file-pure: with no settings file,
`load_settings` returns the default mapping (`tax_rate = 0.10`) and the
resulting state still has no settings file; the history file is also
untouched. -/
theorem load_settings_fresh (e : Env) (h : e.settings = none) :
    (load_settings e).2 = defaultSettings
    ∧ ((load_settings e).2).lookup "tax_rate" = some (JVal.num (1 / 10))
    ∧ (load_settings e).1.settings = none
    ∧ (load_settings e).1.history = e.history := by
  refine ⟨?_, ?_, ?_, ?_⟩ <;>
    simp [load_settings, ensure_data_dir, h, defaultSettings, List.lookup_cons]

/-- Witness for C8: loading in a fresh environment returns the default
and leaves the settings file absent. -/
theorem load_settings_fresh_witness :
    (load_settings ⟨false, none, none⟩).2 = defaultSettings
    ∧ (load_settings ⟨false, none, none⟩).1.settings = none :=
  ⟨(load_settings_fresh ⟨false, none, none⟩ rfl).1,
    (load_settings_fresh ⟨false, none, none⟩ rfl).2.2.1⟩

/-! ## Claim C3: recent trend -/

theorem trendFold_acc (l : List RowDict) :
    ∀ a b c, l.foldl
        (fun acc r =>
          (acc.1 ++ [labelOf r], acc.2.1 ++ [totalOf r], acc.2.2 ++ [memoRawOf r]))
        (a, b, c)
      = (a ++ l.map labelOf, b ++ l.map totalOf, c ++ l.map memoRawOf) := by
  induction l with
  | nil => simp
  | cons r t ih =>
      intro a b c
      rw [List.foldl_cons, ih]
      simp

theorem trendFold_eq (l : List RowDict) :
    trendFold l = (l.map labelOf, l.map totalOf, l.map memoRawOf) := by
  unfold trendFold
  rw [trendFold_acc]
  simp

/-- C3. Recent trend: for a positive window size (the UI slider ranges
over 5–50), the trend view is the parallel lists of labels, parsed
totals and raw memos of exactly the last `n` records in file order —
the slice is a suffix of the ledger of length `min n (length rows)`,
and it is the whole ledger when fewer than `n` records exist.  Labels
and totals are produced by `labelOf` (characters 5–15 inclusive of the
`datetime` string when its length is at least 16, the unmodified string
otherwise) and `totalOf` (`float(total)` defaulting to 0.0), applied in
order. -/
theorem recent_trend (rows : List RowDict) (n : ℕ) (h : 0 < n) :
    recentTrend rows n
      = ((rows.drop (rows.length - n)).map labelOf,
         (rows.drop (rows.length - n)).map totalOf,
         (rows.drop (rows.length - n)).map memoRawOf)
    ∧ sliceLast rows n = rows.drop (rows.length - n)
    ∧ (sliceLast rows n).length = min n rows.length
    ∧ (sliceLast rows n) <:+ rows
    ∧ (rows.length ≤ n → sliceLast rows n = rows) := by
  have hslice : sliceLast rows n = rows.drop (rows.length - n) := by
    unfold sliceLast
    rw [if_neg (Nat.pos_iff_ne_zero.mp h)]
  refine ⟨?_, hslice, ?_, ?_, ?_⟩
  · unfold recentTrend
    rw [hslice, trendFold_eq]
  · rw [hslice, List.length_drop]
    omega
  · rw [hslice]
    exact List.drop_suffix _ _
  · intro hle
    rw [hslice, Nat.sub_eq_zero_of_le hle, List.drop_zero]

/-- Witness for C3: three records, window 2 — the last two in order. -/
theorem recent_trend_witness :
    recentTrend
        [[("datetime", "2024-01-01 10:20:30"), ("total", "10"), ("memo", "a")],
         [("datetime", "2024-01-02 11:21:31"), ("total", "20"), ("memo", "b")],
         [("datetime", "2024-01-03 12:22:32"), ("total", "30"), ("memo", "c")]] 2
      = (["01-02 11:21", "01-03 12:22"], [20, 30], ["b", "c"]) := by
  rw [(recent_trend
    [[("datetime", "2024-01-01 10:20:30"), ("total", "10"), ("memo", "a")],
     [("datetime", "2024-01-02 11:21:31"), ("total", "20"), ("memo", "b")],
     [("datetime", "2024-01-03 12:22:32"), ("total", "30"), ("memo", "c")]] 2
    (by decide)).1]
  with_unfolding_all decide

/-! ## Claim C2: memo aggregation -/

theorem lookup_bucketAdd (b : List (String × ℚ)) (k k' : String) (t : ℚ) :
    (bucketAdd b k t).lookup k' =
      if k' = k then some ((b.lookup k').getD 0 + t) else b.lookup k' := by
  induction b with
  | nil =>
      by_cases h : k' = k
      · subst h
        simp [bucketAdd, List.lookup_cons]
      · have hb : (k' == k) = false := beq_eq_false_iff_ne.mpr h
        simp [bucketAdd, List.lookup_cons, hb, h]
  | cons a rest ih =>
      obtain ⟨ak, av⟩ := a
      by_cases hak : ak = k
      · subst hak
        simp only [bucketAdd, if_pos rfl]
        by_cases hk' : k' = ak
        · subst hk'
          simp [List.lookup_cons]
        · have hb : (k' == ak) = false := beq_eq_false_iff_ne.mpr hk'
          simp [List.lookup_cons, hb, hk']
      · simp only [bucketAdd, if_neg hak]
        by_cases hk' : k' = ak
        · subst hk'
          rw [if_neg hak]
          simp [List.lookup_cons]
        · have hb : (k' == ak) = false := beq_eq_false_iff_ne.mpr hk'
          simp only [List.lookup_cons, hb]
          exact ih

theorem lookup_none_not_mem_keys {b : List (String × ℚ)} {k : String}
    (h : b.lookup k = none) : k ∉ b.map Prod.fst := by
  induction b with
  | nil => simp
  | cons a rest ih =>
      obtain ⟨ak, av⟩ := a
      cases hb : (k == ak) with
      | true =>
          simp only [List.lookup_cons, hb] at h
          exact Option.noConfusion h
      | false =>
          simp only [List.lookup_cons, hb] at h
          simp only [List.map_cons, List.mem_cons]
          rintro (rfl | hmem)
          · simp at hb
          · exact ih h hmem

theorem keys_bucketAdd (b : List (String × ℚ)) (k : String) (t : ℚ) :
    (bucketAdd b k t).map Prod.fst =
      if (b.lookup k).isSome then b.map Prod.fst else b.map Prod.fst ++ [k] := by
  induction b with
  | nil => simp [bucketAdd]
  | cons a rest ih =>
      obtain ⟨ak, av⟩ := a
      by_cases hak : ak = k
      · subst hak
        simp [bucketAdd, List.lookup_cons]
      · have hb : (k == ak) = false := beq_eq_false_iff_ne.mpr (fun hh => hak hh.symm)
        simp only [bucketAdd, if_neg hak, List.map_cons, List.lookup_cons, hb, ih]
        by_cases hs : (rest.lookup k).isSome
        · rw [if_pos hs, if_pos hs]
        · rw [if_neg hs, if_neg hs]
          simp

theorem nodup_keys_bucketAdd {b : List (String × ℚ)} (k : String) (t : ℚ)
    (h : (b.map Prod.fst).Nodup) : ((bucketAdd b k t).map Prod.fst).Nodup := by
  rw [keys_bucketAdd]
  cases hs : b.lookup k with
  | some v => simpa using h
  | none =>
      simp only [Option.isSome_none, Bool.false_eq_true, if_false]
      rw [List.nodup_append]
      exact ⟨h, List.nodup_singleton k,
        fun a ha hmem => by
          rw [List.mem_singleton] at hmem
          subst hmem
          exact lookup_none_not_mem_keys hs ha⟩

theorem lookup_buckets_fold (rows : List RowDict) :
    ∀ (b : List (String × ℚ)) (k : String),
    ((rows.foldl (fun b r => bucketAdd b (memoKeyOf r) (totalOf r)) b).lookup k) =
      if (b.lookup k).isSome ∨ k ∈ rows.map memoKeyOf
      then some ((b.lookup k).getD 0 +
        ((rows.filter (fun r => memoKeyOf r == k)).map totalOf).sum)
      else none := by
  induction rows with
  | nil =>
      intro b k
      simp only [List.foldl_nil, List.map_nil, List.not_mem_nil, or_false,
        List.filter_nil, List.sum_nil, add_zero]
      cases hb : b.lookup k with
      | none => simp
      | some v => simp
  | cons r t ih =>
      intro b k
      rw [List.foldl_cons, ih]
      by_cases hk : memoKeyOf r = k
      · subst hk
        rw [lookup_bucketAdd, if_pos rfl]
        simp [List.filter_cons, add_assoc]
      · have hbeq : (memoKeyOf r == k) = false := beq_eq_false_iff_ne.mpr hk
        have hinner : (bucketAdd b (memoKeyOf r) (totalOf r)).lookup k
            = b.lookup k := by
          rw [lookup_bucketAdd, if_neg (fun hh => hk hh.symm)]
        rw [hinner]
        have hmemiff : k ∈ (r :: t).map memoKeyOf ↔ k ∈ t.map memoKeyOf := by
          simp only [List.map_cons, List.mem_cons]
          constructor
          · rintro (rfl | hm)
            · exact absurd rfl hk
            · exact hm
          · exact Or.inr
        have hfilter : (r :: t).filter (fun r => memoKeyOf r == k)
            = t.filter (fun r => memoKeyOf r == k) := by
          rw [List.filter_cons, hbeq]
          simp
        rw [hfilter]
        exact if_congr (or_congr Iff.rfl hmemiff.symm) rfl rfl

theorem sorted_sortBuckets (b : List (String × ℚ)) :
    (sortBuckets b).Pairwise (fun x y : String × ℚ => y.2 ≤ x.2) := by
  have h := @List.sorted_mergeSort (String × ℚ)
    (fun x y : String × ℚ => decide (y.2 ≤ x.2))
    (fun a b c hab hbc =>
      decide_eq_true (le_trans (of_decide_eq_true hbc) (of_decide_eq_true hab)))
    (fun a b => by
      rcases le_total b.2 a.2 with hle | hle
      · simp [decide_eq_true hle]
      · simp [decide_eq_true hle])
    b
  exact h.imp (fun hab => of_decide_eq_true hab)

/-- C2. Memo aggregation: over the entire ledger, each bucket key's
value is the sum of `totalOf` over exactly the records whose normalized
memo (`memoKeyOf`: trimmed, `""` mapped to `"(no memo)"`) equals it,
and keys absent from the records are absent from the buckets; the keys
are pairwise distinct; sorting permutes the buckets without loss; the
displayed result is the sorted buckets truncated to the first 10,
pairwise descending in summed total, with length at most 10. -/
theorem memo_aggregation (rows : List RowDict) :
    (∀ k : String, (bucketsOf rows).lookup k =
        if k ∈ rows.map memoKeyOf
        then some (((rows.filter (fun r => memoKeyOf r == k)).map totalOf).sum)
        else none)
    ∧ ((bucketsOf rows).map Prod.fst).Nodup
    ∧ List.Perm (sortBuckets (bucketsOf rows)) (bucketsOf rows)
    ∧ topBuckets rows = (sortBuckets (bucketsOf rows)).take 10
    ∧ (topBuckets rows).Pairwise (fun x y : String × ℚ => y.2 ≤ x.2)
    ∧ (topBuckets rows).length ≤ 10 := by
  refine ⟨?_, ?_, ?_, rfl, ?_, ?_⟩
  · intro k
    have h := lookup_buckets_fold rows [] k
    simpa [bucketsOf] using h
  · have : ∀ (rs : List RowDict) (b : List (String × ℚ)),
        (b.map Prod.fst).Nodup →
        ((rs.foldl (fun b r => bucketAdd b (memoKeyOf r) (totalOf r)) b).map
          Prod.fst).Nodup := by
      intro rs
      induction rs with
      | nil => intro b hb; simpa using hb
      | cons r t ih =>
          intro b hb
          rw [List.foldl_cons]
          exact ih _ (nodup_keys_bucketAdd _ _ hb)
    simpa [bucketsOf] using this rows [] (by simp)
  · exact List.mergeSort_perm _ _
  · exact (sorted_sortBuckets _).sublist (List.take_sublist _ _)
  · rw [topBuckets, List.length_take]
    exact min_le_left _ _

example :
    topBuckets
      [[("memo", "A"), ("total", "10")], [("memo", "A"), ("total", "20")],
       [("memo", "A"), ("total", "5")], [("memo", ""), ("total", "3")]]
      = [("A", 35), ("(no memo)", 3)] := by
  with_unfolding_all decide

/-! ## Concrete evaluation checks -/

example : parse_price (some "120") = some 120 := by with_unfolding_all decide
example : parse_price (some " 980.5 ") = some (1961 / 2) := by with_unfolding_all decide
example : parse_price (some "1,200") = some 1200 := by with_unfolding_all decide
example : parse_price (some "") = none := by with_unfolding_all decide
example : parse_price (some "   ") = none := by with_unfolding_all decide
example : parse_price (some "-3") = none := by with_unfolding_all decide
example : parse_price (some "abc") = none := by with_unfolding_all decide
example : parse_price (some ",5") = some 5 := by with_unfolding_all decide
example : parse_price (some "1,2,3") = some 123 := by with_unfolding_all decide
example : parse_price (some "1e2") = some 100 := by with_unfolding_all decide
example : parse_price (some "1.2.3") = none := by with_unfolding_all decide
example : CommaNumeral.wf ⟨['1'], [['2', '0', '0']], none⟩ = true := by decide
example : CommaNumeral.render ⟨['1'], [['2', '0', '0']], none⟩ = "1,200" := by decide

end ShoppingApp
